import Mathlib

/-!
Verification development for the dupdel duplicate-file detector.

The repository's comparison engine (src/dupdel/core.py) is embedded shallowly:
strings become `List Char`, Python ints become `ℤ`/`ℕ`, Python floats (mtimes,
similarity ratios, thresholds) become `ℚ`, and every loop becomes a structural
recursion (fuel-based where the loop variable is not structural).  The
similarity machinery of Python's standard difflib.SequenceMatcher, on which
core.py relies, is embedded from difflib's own source: b2j with autojunk
purging, the find_longest_match dynamic program with its extension loops,
get_matching_blocks (recursive split, sort, merge of adjacent blocks),
get_opcodes, ratio and quick_ratio.  The repository never passes an isjunk
function, so the user-junk set bjunk is always empty; the two junk-extension
while loops of find_longest_match, whose guards require a bjunk member, are
consequently dead and are omitted, while the two non-junk extension loops
(whose "not isbjunk" guards are vacuously true) are embedded.
-/

namespace Dupdel

/-- Python slice `s[i:j]` of a character list. -/
def sliceStr (s : List Char) (i j : ℕ) : List Char := (s.take j).drop i

/-- The length-`k` slice `s[i:i+k]`. -/
def seg (s : List Char) (i k : ℕ) : List Char := (s.drop i).take k

/-- `str.isdigit` of Python: nonempty and all digits (the repository's data uses
ASCII digits, modelled by `Char.isDigit`). -/
def pyIsDigit (s : List Char) : Bool := !s.isEmpty && s.all Char.isDigit

/-- Ascending positions of character `c` in `b`: difflib's `b2j` before junk
purging (built by enumerating `b`). -/
def bIndices (b : List Char) (c : Char) : List ℕ :=
  (List.range b.length).filter (fun j => b.getD j ' ' == c)

/-- difflib autojunk: when autojunk is on and `len(b) >= 200`, characters
occurring more than `len(b) // 100 + 1` times are purged from b2j. -/
def isPopularB (autojunk : Bool) (b : List Char) (c : Char) : Bool :=
  autojunk && decide (200 ≤ b.length) && decide (b.length / 100 + 1 < (bIndices b c).length)

/-- difflib's `b2j` after the autojunk purge (`bjunk` is empty: the repository
never passes an isjunk function). -/
def b2jOf (autojunk : Bool) (b : List Char) (c : Char) : List ℕ :=
  if isPopularB autojunk b c then [] else bIndices b c

/-- Inner `for j in b2j[a[i]]` loop of difflib `find_longest_match`: one row of
the dp.  `prev` is the previous row's `j2len`, `row` accumulates `newj2len`,
`best` is `(besti, bestj, bestsize)`, updated when `k > bestsize`. -/
def rowLoop (prev : ℕ → ℕ) (i : ℕ) :
    List ℕ → (ℕ → ℕ) → (ℕ × ℕ × ℕ) → ((ℕ → ℕ) × (ℕ × ℕ × ℕ))
  | [], row, best => (row, best)
  | j :: js, row, best =>
      let k := (if j = 0 then 0 else prev (j - 1)) + 1
      let row2 : ℕ → ℕ := fun x => if x = j then k else row x
      let best2 := if best.2.2 < k then (i + 1 - k, j + 1 - k, k) else best
      rowLoop prev i js row2 best2

/-- Outer `for i in range(alo, ahi)` loop of difflib `find_longest_match`.
`steps` is the number of remaining rows (`ahi - i`). -/
def iLoop (a b : List Char) (autojunk : Bool) (blo bhi : ℕ) :
    ℕ → ℕ → (ℕ → ℕ) → (ℕ × ℕ × ℕ) → (ℕ × ℕ × ℕ)
  | 0, _, _, best => best
  | steps + 1, i, prev, best =>
      let js := (b2jOf autojunk b (a.getD i ' ')).filter (fun j => blo ≤ j && j < bhi)
      let rb := rowLoop prev i js (fun _ => 0) best
      iLoop a b autojunk blo bhi steps (i + 1) rb.1 rb.2

/-- First (backward) non-junk extension while loop of `find_longest_match`:
`while besti > alo and bestj > blo and a[besti-1] == b[bestj-1]`. -/
def extendBack (a b : List Char) (alo blo : ℕ) : ℕ → (ℕ × ℕ × ℕ) → (ℕ × ℕ × ℕ)
  | 0, best => best
  | fuel + 1, (bi, bj, bs) =>
      if alo < bi ∧ blo < bj ∧ a.getD (bi - 1) ' ' = b.getD (bj - 1) ' ' then
        extendBack a b alo blo fuel (bi - 1, bj - 1, bs + 1)
      else (bi, bj, bs)

/-- Second (forward) non-junk extension while loop of `find_longest_match`:
`while besti+bestsize < ahi and bestj+bestsize < bhi and a[besti+bestsize] == b[bestj+bestsize]`. -/
def extendFwd (a b : List Char) (ahi bhi : ℕ) : ℕ → (ℕ × ℕ × ℕ) → (ℕ × ℕ × ℕ)
  | 0, best => best
  | fuel + 1, (bi, bj, bs) =>
      if bi + bs < ahi ∧ bj + bs < bhi ∧ a.getD (bi + bs) ' ' = b.getD (bj + bs) ' ' then
        extendFwd a b ahi bhi fuel (bi, bj, bs + 1)
      else (bi, bj, bs)

/-- difflib `find_longest_match(alo, ahi, blo, bhi)` (with empty bjunk). -/
def findLongestMatch (autojunk : Bool) (a b : List Char) (alo ahi blo bhi : ℕ) : ℕ × ℕ × ℕ :=
  let b0 := iLoop a b autojunk blo bhi (ahi - alo) alo (fun _ => 0) (alo, blo, 0)
  let b1 := extendBack a b alo blo b0.1 b0
  extendFwd a b ahi bhi ahi b1

/-- The recursive splitting of difflib `get_matching_blocks` (the explicit queue
of the source is a stack; the set of produced blocks is recursion-order
independent and is sorted afterwards). -/
def matchBlocksRec (autojunk : Bool) (a b : List Char) :
    ℕ → ℕ → ℕ → ℕ → ℕ → List (ℕ × ℕ × ℕ)
  | 0, _, _, _, _ => []
  | fuel + 1, alo, ahi, blo, bhi =>
      let m := findLongestMatch autojunk a b alo ahi blo bhi
      if m.2.2 = 0 then []
      else
        (if alo < m.1 ∧ blo < m.2.1 then
            matchBlocksRec autojunk a b fuel alo m.1 blo m.2.1
          else []) ++
        m :: (if m.1 + m.2.2 < ahi ∧ m.2.1 + m.2.2 < bhi then
            matchBlocksRec autojunk a b fuel (m.1 + m.2.2) ahi (m.2.1 + m.2.2) bhi
          else [])

/-- Lexicographic order on block triples: Python's `matching_blocks.sort()`. -/
def tripleLe (x y : ℕ × ℕ × ℕ) : Prop :=
  x.1 < y.1 ∨ (x.1 = y.1 ∧ (x.2.1 < y.2.1 ∨ (x.2.1 = y.2.1 ∧ x.2.2 ≤ y.2.2)))

instance : DecidableRel tripleLe := fun x y => by unfold tripleLe; infer_instance

/-- The adjacent-block merging loop of `get_matching_blocks`, with running
state `(i1, j1, k1)` initialised to `(0, 0, 0)`. -/
def mergeAdj : (ℕ × ℕ × ℕ) → List (ℕ × ℕ × ℕ) → List (ℕ × ℕ × ℕ)
  | (i1, j1, k1), [] => if k1 = 0 then [] else [(i1, j1, k1)]
  | (i1, j1, k1), (i2, j2, k2) :: rest =>
      if i1 + k1 = i2 ∧ j1 + k1 = j2 then mergeAdj (i1, j1, k1 + k2) rest
      else (if k1 = 0 then [] else [(i1, j1, k1)]) ++ mergeAdj (i2, j2, k2) rest

/-- difflib `get_matching_blocks`: split recursively, sort, merge adjacent
blocks, and append the `(la, lb, 0)` terminator. -/
def getMatchingBlocks (autojunk : Bool) (a b : List Char) : List (ℕ × ℕ × ℕ) :=
  let blocks := matchBlocksRec autojunk a b (a.length + b.length + 1) 0 a.length 0 b.length
  mergeAdj (0, 0, 0) (blocks.insertionSort tripleLe) ++ [(a.length, b.length, 0)]

/-- Opcode tags of difflib `get_opcodes`. -/
inductive Tag
  | replace
  | delete
  | insert
  | equal
deriving DecidableEq, Repr

/-- The loop of difflib `get_opcodes` over the matching blocks. -/
def opcodesGo : ℕ → ℕ → List (ℕ × ℕ × ℕ) → List (Tag × ℕ × ℕ × ℕ × ℕ)
  | _, _, [] => []
  | i, j, (ai, bj, size) :: rest =>
      let front : List (Tag × ℕ × ℕ × ℕ × ℕ) :=
        if i < ai ∧ j < bj then [(Tag.replace, i, ai, j, bj)]
        else if i < ai then [(Tag.delete, i, ai, j, bj)]
        else if j < bj then [(Tag.insert, i, ai, j, bj)]
        else []
      let eqPart : List (Tag × ℕ × ℕ × ℕ × ℕ) :=
        if size = 0 then [] else [(Tag.equal, ai, ai + size, bj, bj + size)]
      front ++ eqPart ++ opcodesGo (ai + size) (bj + size) rest

/-- difflib `get_opcodes`. -/
def getOpcodes (autojunk : Bool) (a b : List Char) : List (Tag × ℕ × ℕ × ℕ × ℕ) :=
  opcodesGo 0 0 (getMatchingBlocks autojunk a b)

/-- difflib `_calculate_ratio`. -/
def calcRatioOf (mcount len : ℕ) : ℚ := if len ≠ 0 then 2 * mcount / len else 1

/-- difflib `SequenceMatcher.ratio()`: `2 M / T` over the matching blocks. -/
def ratioOf (autojunk : Bool) (a b : List Char) : ℚ :=
  calcRatioOf (((getMatchingBlocks autojunk a b).map (fun t => t.2.2)).sum)
    (a.length + b.length)

/-- The `for elt in self.a` loop of difflib `quick_ratio`, with `avail` as an
association list (later bindings shadow earlier ones, as dict updates do). -/
def quickLoop (fullb : Char → ℕ) : List Char → List (Char × ℤ) → ℕ → ℕ
  | [], _, mcount => mcount
  | c :: rest, avail, mcount =>
      let numb : ℤ := (avail.lookup c).getD (fullb c : ℤ)
      quickLoop fullb rest ((c, numb - 1) :: avail) (if 0 < numb then mcount + 1 else mcount)

/-- difflib `SequenceMatcher.quick_ratio()` (`fullbcount` is the character
count of `b`). -/
def quickRatioOf (a b : List Char) : ℚ :=
  calcRatioOf (quickLoop (fun c => b.count c) a [] 0) (a.length + b.length)

/-! Embedding of src/dupdel/core.py. -/

/-- core.py `_has_zengo_diff`: a replace opcode (default autojunk) with the
prior-part marker on one side and the latter-part marker on the other. -/
def has_zengo_diff (name1 name2 : List Char) : Bool :=
  (getOpcodes true name1 name2).any (fun op =>
    match op with
    | (Tag.replace, i1, i2, j1, j2) =>
        let s1 := sliceStr name1 i1 i2
        let s2 := sliceStr name2 j1 j2
        (s1.contains '前' && s2.contains '後') || (s1.contains '後' && s2.contains '前')
    | _ => false)

/-- The `while start > 0 and name[start-1].isdigit()` loop of core.py
`_expand_to_digit_group` (fuel: `start` decreases each step). -/
def expandLeftGo (name : List Char) : ℕ → ℕ → ℕ
  | 0, start => start
  | fuel + 1, start =>
      if 0 < start && (name.getD (start - 1) ' ').isDigit then expandLeftGo name fuel (start - 1)
      else start

/-- The `while end < len(name) and name[end].isdigit()` loop of core.py
`_expand_to_digit_group` (fuel: bounded by `name.length`). -/
def expandRightGo (name : List Char) : ℕ → ℕ → ℕ
  | 0, e => e
  | fuel + 1, e =>
      if e < name.length && (name.getD e ' ').isDigit then expandRightGo name fuel (e + 1)
      else e

/-- core.py `_expand_to_digit_group`. -/
def expand_to_digit_group (name : List Char) (start e : ℕ) : ℕ × ℕ :=
  (expandLeftGo name start start, expandRightGo name name.length e)

/-- core.py `_find_digit_group_in_range`: first digit position in
`[start, e)`, expanded to its maximal digit group. -/
def find_digit_group_in_range (name : List Char) (start e : ℕ) : Option (ℕ × ℕ) :=
  match (List.range' start (e - start)).find?
      (fun i => i < name.length && (name.getD i ' ').isDigit) with
  | none => none
  | some pos => some (expandLeftGo name pos pos, expandRightGo name name.length (pos + 1))

/-- core.py `_has_episode_number_diff` (opcodes with autojunk=False). -/
def has_episode_number_diff (name1 name2 : List Char) : Bool :=
  (getOpcodes false name1 name2).any (fun op =>
    match op with
    | (Tag.replace, i1, i2, j1, j2) =>
        if !(sliceStr name1 i1 i2).any Char.isDigit then false
        else if !(sliceStr name2 j1 j2).any Char.isDigit then false
        else
          match find_digit_group_in_range name1 i1 i2,
              find_digit_group_in_range name2 j1 j2 with
          | some g1, some g2 =>
              let s1 := sliceStr name1 g1.1 g1.2
              let s2 := sliceStr name2 g2.1 g2.2
              decide (s1.length ≤ 2) && decide (s2.length ≤ 2)
          | _, _ => false
    | (Tag.delete, i1, i2, j1, _) =>
        if !(sliceStr name1 i1 i2).any Char.isDigit then false
        else
          match find_digit_group_in_range name1 i1 i2 with
          | none => false
          | some g1 =>
              let s1 := sliceStr name1 g1.1 g1.2
              let g2 := expand_to_digit_group name2 j1 j1
              let s2 := sliceStr name2 g2.1 g2.2
              (s2.isEmpty || pyIsDigit s2) && decide (s1.length ≤ 2) && decide (s2.length ≤ 2)
    | (Tag.insert, i1, _, j1, j2) =>
        if !(sliceStr name2 j1 j2).any Char.isDigit then false
        else
          match find_digit_group_in_range name2 j1 j2 with
          | none => false
          | some g2 =>
              let s2 := sliceStr name2 g2.1 g2.2
              let g1 := expand_to_digit_group name1 i1 i1
              let s1 := sliceStr name1 g1.1 g1.2
              (s1.isEmpty || pyIsDigit s1) && decide (s1.length ≤ 2) && decide (s2.length ≤ 2)
    | _ => false)

/-- constants.py `MATCH_TH = 0.85`. -/
def MATCH_TH : ℚ := 85 / 100

/-- core.py `PrecomputedFileInfo` (sizes are Python ints, mtimes floats). -/
structure PrecomputedFileInfo where
  path : String
  dir_path : String
  name : List Char
  rel_name : String
  normalized : List Char
  size : ℤ
  mtime : ℚ
  index : ℕ
deriving DecidableEq, Repr

/-- constants.py `FileInfo`.  The `sm` field holds the two original base names
the SequenceMatcher of the source is built from (which determine it). -/
structure FileInfo where
  path : String
  name : String
  basename : List Char
  size : ℤ
  mtime : ℚ
  index : ℕ
  sm : List Char × List Char
deriving DecidableEq, Repr

/-- constants.py `DupCand = tuple[FileInfo, FileInfo]` (older, newer). -/
abbrev DupCand := FileInfo × FileInfo

/-- The `FileInfo(...)` construction at the end of core.py `compare_pair`. -/
def mkFileInfo (info : PrecomputedFileInfo) (sm : List Char × List Char) : FileInfo :=
  { path := info.path, name := info.rel_name, basename := info.name,
    size := info.size, mtime := info.mtime, index := info.index, sm := sm }

/-- The candidate construction of core.py `compare_pair`: the record with the
smaller mtime first (ties keep the first argument first). -/
def buildCand (info1 info2 : PrecomputedFileInfo) : DupCand :=
  if info1.mtime ≤ info2.mtime then
    (mkFileInfo info1 (info1.name, info2.name), mkFileInfo info2 (info1.name, info2.name))
  else
    (mkFileInfo info2 (info2.name, info1.name), mkFileInfo info1 (info2.name, info1.name))

/-- The tail of core.py `compare_pair` after the two similarity filters: the
broadcast-marker check, the episode-number check, the size-difference check,
then the candidate construction. -/
def compare_pair_post (info1 info2 : PrecomputedFileInfo) : Option DupCand :=
  if has_zengo_diff info1.name info2.name then none
  else if has_episode_number_diff info1.name info2.name then none
  else if 0 < max info1.size info2.size ∧
      (40 : ℚ) ≤ 100 * |(info1.size : ℚ) - (info2.size : ℚ)| / ((max info1.size info2.size : ℤ) : ℚ)
    then none
  else some (buildCand info1 info2)

/-- core.py `compare_pair`. -/
def compare_pair (info1 info2 : PrecomputedFileInfo) (match_th : ℚ) : Option DupCand :=
  let len1 := info1.normalized.length
  let len2 := info2.normalized.length
  if 0 < len1 ∧ 0 < len2 ∧ ((min len1 len2 : ℕ) : ℚ) / ((max len1 len2 : ℕ) : ℚ) < 1 / 2
    then none
  else if quickRatioOf info1.normalized info2.normalized ≤ match_th then none
  else if ratioOf true info1.normalized info2.normalized ≤ match_th then none
  else compare_pair_post info1 info2

/-- The variant of `compare_pair` described by the spec: identical except that
the cheap quick_ratio prefilter is removed (spec: "implementers may skip the
cheap estimate entirely without changing outcomes"). -/
def compare_pair_noquick (info1 info2 : PrecomputedFileInfo) (match_th : ℚ) : Option DupCand :=
  let len1 := info1.normalized.length
  let len2 := info2.normalized.length
  if 0 < len1 ∧ 0 < len2 ∧ ((min len1 len2 : ℕ) : ℚ) / ((max len1 len2 : ℕ) : ℚ) < 1 / 2
    then none
  else if ratioOf true info1.normalized info2.normalized ≤ match_th then none
  else compare_pair_post info1 info2

/-- core.py `count_valid_comparisons`: per directory `n*(n-1)//2`, summed
over the distinct directories (Counter iterates distinct keys). -/
def count_valid_comparisons (file_infos : List PrecomputedFileInfo) : ℕ :=
  let dirs := file_infos.map (fun info => info.dir_path)
  dirs.toFinset.sum (fun d => dirs.count d * (dirs.count d - 1) / 2)

/-- The inner `for j in range(i+1, n)` loop of core.py `_worker_compare_range`:
compare `info1` with each later record, skipping directory mismatches, and
count the directory-matching comparisons. -/
def innerScan (info1 : PrecomputedFileInfo) (match_th : ℚ) :
    List PrecomputedFileInfo → List DupCand × ℕ
  | [] => ([], 0)
  | info2 :: rest =>
      let tail := innerScan info1 match_th rest
      if info1.dir_path = info2.dir_path then
        match compare_pair info1 info2 match_th with
        | some r => (r :: tail.1, tail.2 + 1)
        | none => (tail.1, tail.2 + 1)
      else tail

/-- The outer `for i in range(start_idx, end_idx)` loop of
`_worker_compare_range`; `cnt` is the number of start indices left and the
list argument is the suffix of the records from the current start index. -/
def workerGo (match_th : ℚ) : ℕ → List PrecomputedFileInfo → List DupCand × ℕ
  | 0, _ => ([], 0)
  | _ + 1, [] => ([], 0)
  | cnt + 1, info1 :: rest =>
      let here := innerScan info1 match_th rest
      let later := workerGo match_th cnt rest
      (here.1 ++ later.1, here.2 + later.2)

/-- core.py `_worker_compare_range` on task `(start_idx, end_idx, match_th)`
over the worker's full record list. -/
def worker_compare_range (file_infos : List PrecomputedFileInfo)
    (task : ℕ × ℕ × ℚ) : List DupCand × ℕ :=
  workerGo task.2.2 (task.2.1 - task.1) (file_infos.drop task.1)

/-- The task-building `for i in range(n - 1)` loop of core.py
`find_dup_candidates_parallel` (fuel `n - 1 - i`; state: current_start,
current_count). -/
def buildGo (n target : ℕ) (match_th : ℚ) : ℕ → ℕ → ℕ → ℕ → List (ℕ × ℕ × ℚ)
  | 0, _, _, _ => []
  | fuel + 1, i, cs, cc =>
      let cc2 := cc + (n - 1 - i)
      if target ≤ cc2 ∨ i = n - 2 then (cs, i + 1, match_th) :: buildGo n target match_th fuel (i + 1) (i + 1) 0
      else buildGo n target match_th fuel (i + 1) cs cc2

/-- The task list built by core.py `find_dup_candidates_parallel` for `n`
records and `num_workers` workers, including the target-size computation and
the empty-list fallback. -/
def buildTasks (n num_workers : ℕ) : List (ℕ × ℕ × ℚ) :=
  let total_comparisons := n * (n - 1) / 2
  let min_tasks := max 200 (num_workers * 50)
  let target_per_task := min 500000 (max 1 (total_comparisons / min_tasks))
  let tasks := buildGo n target_per_task MATCH_TH (n - 1) 0 0 0
  if tasks = [] then [(0, n - 1, MATCH_TH)] else tasks

/-- `(s, e)` intervals chain consecutively from `lo` to `hi`: each task starts
where the previous one ended, is nonempty, and the last ends at `hi` (hence
the start indices `[lo, hi)` are partitioned). -/
def chainFromB : ℕ → ℕ → List (ℕ × ℕ × ℚ) → Bool
  | lo, hi, [] => lo == hi
  | lo, hi, t :: rest => t.1 == lo && lo < t.2.1 && chainFromB t.2.1 hi rest

/-- Same-directory pair count of a record list: head against tail, plus the
rest (the reference count `count_valid_comparisons` is proved equal to it). -/
def pairSum : List PrecomputedFileInfo → ℕ
  | [] => 0
  | x :: rest => rest.countP (fun y => y.dir_path = x.dir_path) + pairSum rest

/-- Number of directory-matching partners of record `i` among the later
records (`rowValid infos i` = valid comparisons contributed by start index `i`). -/
def rowValid (file_infos : List PrecomputedFileInfo) (i : ℕ) : ℕ :=
  match file_infos.drop i with
  | [] => 0
  | x :: rest => rest.countP (fun y => y.dir_path = x.dir_path)

/-- Same-directory pair count expressed on the directory list alone. -/
def dirPairSum : List String → ℕ
  | [] => 0
  | d :: ds => ds.count d + dirPairSum ds

/-! Embedding of src/dupdel/cache.py.  Path normalisation (os.path.abspath)
depends on the process state and is abstracted as a parameter `norm`; the
table of `skipped_pairs` rows is a list of key tuples. -/

/-- cache.py `_get_pair_key`: normalise both paths and order the tuple
lexicographically (Python string `<`, i.e. the order on `String`). -/
def get_pair_key (norm : String → String) (path1 path2 : String) : String × String :=
  let p1 := norm path1
  let p2 := norm path2
  if p1 < p2 then (p1, p2) else (p2, p1)

/-- SQLite `INSERT OR REPLACE` on the `(path1, path2)` primary key. -/
def insertOrReplaceRow (row : String × String) (db : List (String × String)) :
    List (String × String) :=
  row :: db.filter (fun r => !(r == row))

/-- cache.py `_cache_pair`. -/
def cache_pair (norm : String → String) (db : List (String × String))
    (path1 path2 : String) : List (String × String) :=
  insertOrReplaceRow (get_pair_key norm path1 path2) db

/-- cache.py `is_pair_cached` (the SELECT membership test). -/
def is_pair_cached (norm : String → String) (db : List (String × String))
    (path1 path2 : String) : Bool :=
  db.contains (get_pair_key norm path1 path2)

/-! Model of the control flow of src/dupdel/ui.py around the skip cache
(list_dup_cand, exec_delete, run_interactive).  The shutdown flag is a
function of an observation clock that ticks at each point where the source
reads `shutdown_event.is_set()`; user input is a function of the number of
prompts answered so far.  Exceptions (KeyboardInterrupt) are outside the
model: the modelled runs are the exception-free executions. -/

/-- Answers to the `[y/n/q]` question of `list_dup_cand`. -/
inductive QAns
  | yes
  | no
  | quit
deriving DecidableEq, Repr

/-- Answers to the `[y/n/a]` question of `exec_delete`. -/
inductive DAns
  | yes
  | no
  | all
deriving DecidableEq, Repr

/-- The `for future in as_completed(...)` loop of
`find_dup_candidates_parallel`: before each completed task's result is
aggregated the shutdown flag is observed (one clock tick per observation);
when it is set the loop breaks and the results aggregated so far are
returned.  Returns the aggregated candidates and the clock after the loop. -/
def collectResults (flag : ℕ → Bool) : ℕ → List (List DupCand × ℕ) → List DupCand × ℕ
  | t, [] => ([], t)
  | t, r :: rest =>
      if flag t then ([], t)
      else
        let later := collectResults flag (t + 1) rest
        (r.1 ++ later.1, later.2)

/-- Number of completed tasks aggregated before the flag is first observed
set (all of them if it never is). -/
def processedCount (flag : ℕ → Bool) : ℕ → ℕ → ℕ
  | _, 0 => 0
  | t, len + 1 => if flag t then 0 else processedCount flag (t + 1) len + 1

/-- The question loop of ui.py `list_dup_cand` (phase 2): one flag
observation per iteration, then the user's answer: `y` appends to the
deletion list, `q` breaks, anything else appends the pair of paths to the
skipped list. -/
def qaLoop (flag : ℕ → Bool) (ans : ℕ → QAns) :
    ℕ → ℕ → List DupCand → List DupCand → List (String × String) →
    (List DupCand × List (String × String)) × ℕ
  | t, _, [], dups, skipped => ((dups, skipped), t)
  | t, k, q :: qs, dups, skipped =>
      if flag t then ((dups, skipped), t + 1)
      else
        match ans k with
        | QAns.yes => qaLoop flag ans (t + 1) (k + 1) qs (dups ++ [q]) skipped
        | QAns.quit => ((dups, skipped), t + 1)
        | QAns.no => qaLoop flag ans (t + 1) (k + 1) qs dups
            (skipped ++ [(q.1.path, q.2.path)])

/-- ui.py `list_dup_cand` from the parallel comparison phase on: aggregate
task results (with per-task flag observations), filter cached pairs, observe
the flag (ui.py:263: on shutdown return the empty candidate and skipped
lists), return early when no questions are pending, otherwise run the
question loop.  Returns `((deletion candidates, skipped pairs), clock)`. -/
def listDupCand (flag : ℕ → Bool) (cached : DupCand → Bool) (ans : ℕ → QAns)
    (t : ℕ) (taskResults : List (List DupCand × ℕ)) :
    (List DupCand × List (String × String)) × ℕ :=
  let collected := collectResults flag t taskResults
  let pending := collected.1.filter (fun c => !cached c)
  if flag collected.2 then (([], []), collected.2 + 1)
  else if pending.isEmpty then (([], []), collected.2 + 1)
  else qaLoop flag ans (collected.2 + 1) 0 pending [] []

/-- The deletion loop of ui.py `exec_delete`: vanished files are skipped
without a prompt; `a` switches to process-all; `n` records a rejection.
Returns `not has_rejection`. -/
def execDeleteGo (isfile : DupCand → Bool) (dans : ℕ → DAns) :
    List DupCand → ℕ → Bool → Bool → Bool
  | [], _, _, hasRej => !hasRej
  | c :: rest, k, processAll, hasRej =>
      if !isfile c then execDeleteGo isfile dans rest k processAll hasRej
      else if processAll then execDeleteGo isfile dans rest k processAll hasRej
      else
        match dans k with
        | DAns.yes => execDeleteGo isfile dans rest (k + 1) false hasRej
        | DAns.all => execDeleteGo isfile dans rest (k + 1) true hasRej
        | DAns.no => execDeleteGo isfile dans rest (k + 1) false true

/-- ui.py `exec_delete` (an empty candidate list returns True). -/
def execDelete (isfile : DupCand → Bool) (dans : ℕ → DAns) (cands : List DupCand) : Bool :=
  if cands.isEmpty then true else execDeleteGo isfile dans cands 0 false false

/-- ui.py `run_interactive`: run `listDupCand`, observe the flag (ui.py:475:
on shutdown return without saving), otherwise set `should_save_cache` (True
when there are no deletion candidates, else `exec_delete`'s result), and in
the `finally` block call `cache_pairs_bulk(skipped_pairs)` iff
`should_save_cache` and the skipped list is nonempty.  Returns the argument
passed to the bulk cache write (`none` when no write happens) and the final
clock. -/
def runInteractiveModel (flag : ℕ → Bool) (cached : DupCand → Bool) (ans : ℕ → QAns)
    (isfile : DupCand → Bool) (dans : ℕ → DAns)
    (t : ℕ) (taskResults : List (List DupCand × ℕ)) :
    Option (List (String × String)) × ℕ :=
  let r := listDupCand flag cached ans t taskResults
  if flag r.2 then (none, r.2 + 1)
  else
    let shouldSave := if r.1.1.isEmpty then true else execDelete isfile dans r.1.1
    ((if shouldSave && !r.1.2.isEmpty then some r.1.2 else none), r.2 + 1)

/-- The shutdown flag is a `threading.Event`: once set it stays set. -/
def FlagMonotone (flag : ℕ → Bool) : Prop :=
  ∀ s t : ℕ, s ≤ t → flag s = true → flag t = true

/-! Embedding of core.py `_get_mtime_safe` / `sort_files_by_mtime`.  The
filesystem is abstracted as `fs : String → Option ℚ` giving each path's stat
mtime, `none` when stat raises OSError.  Python's `sorted` is a stable sort
by key; it is embedded as a stable insertion sort (insertion strictly past
smaller keys), which produces the same list as any stable sort. -/

/-- core.py `_get_mtime_safe`: the stat mtime, or 0 on OSError. -/
def get_mtime_safe (fs : String → Option ℚ) (path : String) : ℚ :=
  match fs path with
  | some m => m
  | none => 0

/-- Stable insertion of a path into a list sorted by safe mtime. -/
def insertByMtime (fs : String → Option ℚ) (x : String) : List String → List String
  | [] => [x]
  | y :: ys =>
      if get_mtime_safe fs y < get_mtime_safe fs x then y :: insertByMtime fs x ys
      else x :: y :: ys

/-- core.py `sort_files_by_mtime`: `sorted(file_path_list, key=_get_mtime_safe)`. -/
def sort_files_by_mtime (fs : String → Option ℚ) : List String → List String
  | [] => []
  | x :: xs => insertByMtime fs x (sort_files_by_mtime fs xs)

/-! Concrete records used as test inputs and witnesses. -/

/-- The non-SequenceMatcher content of a `FileInfo` (the dataclass fields
except the alignment object). -/
def FileInfo.core (f : FileInfo) : String × String × List Char × ℤ × ℚ × ℕ :=
  (f.path, f.name, f.basename, f.size, f.mtime, f.index)

/-- The base name used by the well-behaved witness records. -/
def abcdName : List Char := "abcd.ts".data

/-- A record with a fixed well-behaved name, parameterised by size and mtime. -/
def mkAbcd (p : String) (size : ℤ) (mtime : ℚ) (idx : ℕ) : PrecomputedFileInfo :=
  { path := p, dir_path := "/d", name := abcdName, rel_name := "abcd.ts",
    normalized := abcdName, size := size, mtime := mtime, index := idx }

/-- First record of the ratio-asymmetry pair. -/
def exAsymA : PrecomputedFileInfo :=
  { path := "a", dir_path := "/d", name := "bddbcbdd".data, rel_name := "a",
    normalized := "bddbcbdd".data, size := 100, mtime := 1, index := 1 }

/-- Second record of the ratio-asymmetry pair. -/
def exAsymB : PrecomputedFileInfo :=
  { path := "b", dir_path := "/d", name := "bdbcdbdd".data, rel_name := "b",
    normalized := "bdbcdbdd".data, size := 100, mtime := 2, index := 2 }

/-- A record whose normalized name is empty, parameterised by mtime. -/
def mkEmptyNorm (p : String) (mtime : ℚ) : PrecomputedFileInfo :=
  { path := p, dir_path := "/d", name := "____.ts".data, rel_name := "____.ts",
    normalized := [], size := 1000, mtime := mtime, index := 1 }

/-- A record living in directory `d`, used for the scheduler witness. -/
def mkInDir (p d : String) : PrecomputedFileInfo :=
  { path := p, dir_path := d, name := "f.ts".data, rel_name := "f.ts",
    normalized := "f.ts".data, size := 1, mtime := 0, index := 0 }

/-- A tiny filesystem: path "gone" fails to stat, all other paths have
mtime 1. -/
def fsW : String → Option ℚ := fun p => if p = "gone" then none else some 1

/-- Invariant of a dp row when the outer loop is about to process row `i`:
every nonzero entry `v = row j` certifies a common segment of length `v` of
`a` ending at row `i - 1` and of `b` ending at column `j`, lying inside the
search window. -/
def RowInv (a b : List Char) (alo blo bhi : ℕ) (row : ℕ → ℕ) (i : ℕ) : Prop :=
  ∀ j, row j ≠ 0 →
    row j ≤ i ∧ row j ≤ j + 1 ∧ alo + row j ≤ i ∧ blo + row j ≤ j + 1 ∧ j < bhi ∧
      seg a (i - row j) (row j) = seg b (j + 1 - row j) (row j)

/-- Invariant of the running best triple `(besti, bestj, bestsize)` of
find_longest_match: it denotes equal segments of `a` and `b` inside the
window `[alo, ahi) x [blo, bhi)`. -/
def BestInv (a b : List Char) (alo ahi blo bhi : ℕ) (best : ℕ × ℕ × ℕ) : Prop :=
  alo ≤ best.1 ∧ best.1 + best.2.2 ≤ ahi ∧ blo ≤ best.2.1 ∧ best.2.1 + best.2.2 ≤ bhi ∧
    seg a best.1 best.2.2 = seg b best.2.1 best.2.2

/-! Theorems. -/

set_option maxRecDepth 1000000

/-- Whatever the filters decide, a returned candidate is exactly the
`buildCand` construction of the two inputs. -/
theorem compare_pair_some_eq (info1 info2 : PrecomputedFileInfo) (th : ℚ) (p : DupCand)
    (h : compare_pair info1 info2 th = some p) : p = buildCand info1 info2 := by
  simp only [compare_pair, compare_pair_post] at h
  repeat' split at h
  all_goals simp_all

/-- The first component of a built candidate has the smaller mtime. -/
theorem buildCand_fst_mtime_le (info1 info2 : PrecomputedFileInfo) :
    (buildCand info1 info2).1.mtime ≤ (buildCand info1 info2).2.mtime := by
  rw [buildCand]
  split
  · simpa [mkFileInfo] using by assumption
  · simp only [mkFileInfo]
    exact le_of_not_le (by assumption)

/-- Evaluation facts for the name "abcd.ts". -/
theorem abcd_quick : quickLoop (fun c => List.count c abcdName) abcdName [] 0 = 7 := by
  decide

theorem abcd_blocks :
    ((getMatchingBlocks true abcdName abcdName).map (fun t => t.2.2)).sum = 7 := by
  decide

theorem abcd_zengo : has_zengo_diff abcdName abcdName = false := by decide

theorem abcd_episode : has_episode_number_diff abcdName abcdName = false := by decide

theorem abcd_len : abcdName.length = 7 := by decide

/-- When the three similarity prefilters do not fire, `compare_pair` is the
filter tail `compare_pair_post`. -/
theorem compare_pair_eq_post (info1 info2 : PrecomputedFileInfo) (th : ℚ)
    (h1 : ¬ (0 < info1.normalized.length ∧ 0 < info2.normalized.length ∧
      ((min info1.normalized.length info2.normalized.length : ℕ) : ℚ) /
        ((max info1.normalized.length info2.normalized.length : ℕ) : ℚ) < 1 / 2))
    (h2 : ¬ quickRatioOf info1.normalized info2.normalized ≤ th)
    (h3 : ¬ ratioOf true info1.normalized info2.normalized ≤ th) :
    compare_pair info1 info2 th = compare_pair_post info1 info2 := by
  simp only [compare_pair, if_neg h1, if_neg h2, if_neg h3]

theorem abcd_len_guard :
    ¬ (0 < abcdName.length ∧ 0 < abcdName.length ∧
      ((min abcdName.length abcdName.length : ℕ) : ℚ) /
        ((max abcdName.length abcdName.length : ℕ) : ℚ) < 1 / 2) := by
  rw [abcd_len]
  norm_num

theorem abcd_quick_not_le : ¬ quickRatioOf abcdName abcdName ≤ MATCH_TH := by
  rw [quickRatioOf, abcd_quick, abcd_len]
  norm_num [calcRatioOf, MATCH_TH]

theorem abcd_ratio_not_le : ¬ ratioOf true abcdName abcdName ≤ MATCH_TH := by
  rw [ratioOf, abcd_blocks, abcd_len]
  norm_num [calcRatioOf, MATCH_TH]

/-- On two `mkAbcd` records the name-based filters always pass, and the
outcome is decided by the size filter alone. -/
theorem compare_pair_mkAbcd (p1 p2 : String) (s1 s2 : ℤ) (m1 m2 : ℚ) (i1 i2 : ℕ) :
    compare_pair (mkAbcd p1 s1 m1 i1) (mkAbcd p2 s2 m2 i2) MATCH_TH =
      if 0 < max s1 s2 ∧ (40 : ℚ) ≤ 100 * |(s1 : ℚ) - (s2 : ℚ)| / ((max s1 s2 : ℤ) : ℚ)
        then none
      else some (buildCand (mkAbcd p1 s1 m1 i1) (mkAbcd p2 s2 m2 i2)) := by
  refine (compare_pair_eq_post (mkAbcd p1 s1 m1 i1) (mkAbcd p2 s2 m2 i2) MATCH_TH
    abcd_len_guard abcd_quick_not_le abcd_ratio_not_le).trans ?_
  simp only [compare_pair_post, mkAbcd, abcd_zengo, abcd_episode, Bool.false_eq_true,
    if_false]

/-- C2 counterexample: two same-directory records that pass every name-based
filter (witnessed by the equal-size variant being accepted) are REJECTED at a
size-difference ratio of exactly 40% (sizes 100 and 60): the source rejects at
`size_diff_ratio >= 40`, so the claimed acceptance at exactly 40% is false. -/
theorem size_forty_percent_rejected :
    compare_pair (mkAbcd "p1" 100 1 1) (mkAbcd "p2" 60 2 2) MATCH_TH = none ∧
    compare_pair (mkAbcd "p1" 100 1 1) (mkAbcd "p2" 100 2 2) MATCH_TH ≠ none := by
  constructor
  · rw [compare_pair_mkAbcd]
    norm_num
  · rw [compare_pair_mkAbcd]
    norm_num
    exact Option.some_ne_none _

/-- C2 (amended): the size filter rejects at a ratio of exactly 40% (sizes
100/60) and at 40.0001% (sizes 10000000/5999990), and accepts strictly below
40% (sizes 100/61, ratio 39%). -/
theorem size_boundary_amended :
    compare_pair (mkAbcd "p1" 100 1 1) (mkAbcd "p2" 60 2 2) MATCH_TH = none ∧
    compare_pair (mkAbcd "p1" 10000000 1 1) (mkAbcd "p2" 5999990 2 2) MATCH_TH = none ∧
    compare_pair (mkAbcd "p1" 100 1 1) (mkAbcd "p2" 61 2 2) MATCH_TH =
      some (buildCand (mkAbcd "p1" 100 1 1) (mkAbcd "p2" 61 2 2)) := by
  refine ⟨?_, ?_, ?_⟩
  · rw [compare_pair_mkAbcd]
    norm_num
  · rw [compare_pair_mkAbcd]
    norm_num
  · rw [compare_pair_mkAbcd]
    norm_num

/-- C3: the episode-number heuristic fires on "番組名 #1_200101.ts" vs
"番組名 #2_200101.ts" (one-digit episode difference) and does not fire on
"番組名_250716_2130.ts" vs "番組名_250723_1215.ts" (six-digit date runs) nor
on "番組名_100_内容.ts" vs "番組名_101_内容.ts" (three-digit runs). -/
theorem episode_heuristic_vectors :
    has_episode_number_diff "番組名 #1_200101.ts".data "番組名 #2_200101.ts".data = true ∧
    has_episode_number_diff "番組名_250716_2130.ts".data "番組名_250723_1215.ts".data = false ∧
    has_episode_number_diff "番組名_100_内容.ts".data "番組名_101_内容.ts".data = false := by
  exact ⟨by decide, by decide, by decide⟩

/-- C4: every candidate returned by compare_pair has the older file first:
the first component's mtime is at most the second's. -/
theorem candidate_older_first (info1 info2 : PrecomputedFileInfo) (th : ℚ) (p : DupCand)
    (h : compare_pair info1 info2 th = some p) : p.1.mtime ≤ p.2.mtime := by
  rw [compare_pair_some_eq info1 info2 th p h]
  exact buildCand_fst_mtime_le info1 info2

/-- C4 witness: a concrete accepted pair (mtimes 5 and 3, given in the
non-sorted order) satisfies the ordering invariant. -/
theorem candidate_older_first_witness :
    (buildCand (mkAbcd "w1" 100 5 1) (mkAbcd "w2" 100 3 2)).1.mtime ≤
      (buildCand (mkAbcd "w1" 100 5 1) (mkAbcd "w2" 100 3 2)).2.mtime := by
  have h : compare_pair (mkAbcd "w1" 100 5 1) (mkAbcd "w2" 100 3 2) MATCH_TH =
      some (buildCand (mkAbcd "w1" 100 5 1) (mkAbcd "w2" 100 3 2)) := by
    rw [compare_pair_mkAbcd]
    norm_num
  exact candidate_older_first (mkAbcd "w1" 100 5 1) (mkAbcd "w2" 100 3 2) MATCH_TH _ h

/-- C5 counterexample: compare_pair is NOT symmetric.  On the same-directory
records with names "bddbcbdd" and "bdbcdbdd" (equal sizes, distinct mtimes),
one argument order is rejected (difflib ratio 3/8) while the other is
accepted (ratio 7/8 > 0.85): acceptance depends on argument order. -/
theorem compare_pair_asymmetry :
    compare_pair exAsymA exAsymB MATCH_TH = none ∧
    compare_pair exAsymB exAsymA MATCH_TH ≠ none := by
  constructor
  · have hlen : ("bddbcbdd".data).length = 8 := by decide
    have hlen2 : ("bdbcdbdd".data).length = 8 := by decide
    have hq : quickLoop (fun c => List.count c "bdbcdbdd".data) "bddbcbdd".data [] 0 = 8 := by
      decide
    have hr : ((getMatchingBlocks true "bddbcbdd".data "bdbcdbdd".data).map
        (fun t => t.2.2)).sum = 3 := by decide
    simp only [compare_pair, exAsymA, exAsymB, quickRatioOf, ratioOf, calcRatioOf,
      hlen, hlen2, hq, hr, MATCH_TH]
    norm_num
  · have hlen : ("bddbcbdd".data).length = 8 := by decide
    have hlen2 : ("bdbcdbdd".data).length = 8 := by decide
    have hq : quickLoop (fun c => List.count c "bddbcbdd".data) "bdbcdbdd".data [] 0 = 8 := by
      decide
    have hr : ((getMatchingBlocks true "bdbcdbdd".data "bddbcbdd".data).map
        (fun t => t.2.2)).sum = 7 := by decide
    have hz : has_zengo_diff "bdbcdbdd".data "bddbcbdd".data = false := by decide
    have he : has_episode_number_diff "bdbcdbdd".data "bddbcbdd".data = false := by decide
    simp only [compare_pair, compare_pair_post, exAsymA, exAsymB, quickRatioOf, ratioOf,
      calcRatioOf, hlen, hlen2, hq, hr, hz, he, MATCH_TH, buildCand, mkFileInfo]
    norm_num
    exact Option.some_ne_none _

/-- C5 (amended): when BOTH argument orders accept, the two returned
candidates agree up to the older/newer relabeling on every dataclass field
except the alignment object. -/
theorem compare_pair_symmetry_amended (a b : PrecomputedFileInfo) (th : ℚ) (p q : DupCand)
    (hp : compare_pair a b th = some p) (hq : compare_pair b a th = some q) :
    (p.1.core = q.1.core ∧ p.2.core = q.2.core) ∨
      (p.1.core = q.2.core ∧ p.2.core = q.1.core) := by
  rw [compare_pair_some_eq a b th p hp, compare_pair_some_eq b a th q hq]
  by_cases h1 : a.mtime ≤ b.mtime <;> by_cases h2 : b.mtime ≤ a.mtime
  · right
    simp [buildCand, h1, h2, FileInfo.core, mkFileInfo]
  · left
    simp [buildCand, h1, h2, FileInfo.core, mkFileInfo]
  · left
    simp [buildCand, h1, h2, FileInfo.core, mkFileInfo]
  · rcases le_total a.mtime b.mtime with h | h <;> contradiction

/-- C5 witness for the amended statement: a pair accepted in both orders. -/
theorem compare_pair_symmetry_amended_witness :
    ((buildCand (mkAbcd "s1" 100 1 1) (mkAbcd "s2" 100 2 2)).1.core =
        (buildCand (mkAbcd "s2" 100 2 2) (mkAbcd "s1" 100 1 1)).1.core ∧
      (buildCand (mkAbcd "s1" 100 1 1) (mkAbcd "s2" 100 2 2)).2.core =
        (buildCand (mkAbcd "s2" 100 2 2) (mkAbcd "s1" 100 1 1)).2.core) ∨
    ((buildCand (mkAbcd "s1" 100 1 1) (mkAbcd "s2" 100 2 2)).1.core =
        (buildCand (mkAbcd "s2" 100 2 2) (mkAbcd "s1" 100 1 1)).2.core ∧
      (buildCand (mkAbcd "s1" 100 1 1) (mkAbcd "s2" 100 2 2)).2.core =
        (buildCand (mkAbcd "s2" 100 2 2) (mkAbcd "s1" 100 1 1)).1.core) := by
  have hp : compare_pair (mkAbcd "s1" 100 1 1) (mkAbcd "s2" 100 2 2) MATCH_TH =
      some (buildCand (mkAbcd "s1" 100 1 1) (mkAbcd "s2" 100 2 2)) := by
    rw [compare_pair_mkAbcd]
    norm_num
  have hq : compare_pair (mkAbcd "s2" 100 2 2) (mkAbcd "s1" 100 1 1) MATCH_TH =
      some (buildCand (mkAbcd "s2" 100 2 2) (mkAbcd "s1" 100 1 1)) := by
    rw [compare_pair_mkAbcd]
    norm_num
  exact compare_pair_symmetry_amended (mkAbcd "s1" 100 1 1) (mkAbcd "s2" 100 2 2)
    MATCH_TH _ _ hp hq

/-- C7: with both normalized names empty, the length prefilter is skipped (no
division happens: the guard fails) and neither similarity filter rejects —
both ratios are 1, above any threshold below 1 — so compare_pair reduces to
the broadcast-marker / episode-number / size tail `compare_pair_post`. -/
theorem empty_normalized_passthrough (info1 info2 : PrecomputedFileInfo) (th : ℚ)
    (h1 : info1.normalized = []) (h2 : info2.normalized = []) (hth : th < 1) :
    compare_pair info1 info2 th = compare_pair_post info1 info2 := by
  apply compare_pair_eq_post
  · rw [h1]
    simp
  · rw [h1, h2]
    have hq : quickRatioOf [] [] = 1 := by norm_num [quickRatioOf, quickLoop, calcRatioOf]
    rw [hq]
    exact not_le.mpr hth
  · rw [h1, h2]
    have hsum : ((getMatchingBlocks true [] []).map (fun t => t.2.2)).sum = 0 := by decide
    have hrat : ratioOf true [] [] = 1 := by
      rw [ratioOf, hsum]
      norm_num [calcRatioOf]
    rw [hrat]
    exact not_le.mpr hth

/-- C7 witness: two records whose names are all-ignored characters. -/
theorem empty_normalized_passthrough_witness :
    compare_pair (mkEmptyNorm "e1" 1) (mkEmptyNorm "e2" 2) MATCH_TH =
      compare_pair_post (mkEmptyNorm "e1" 1) (mkEmptyNorm "e2" 2) :=
  empty_normalized_passthrough (mkEmptyNorm "e1" 1) (mkEmptyNorm "e2" 2) MATCH_TH
    rfl rfl (by norm_num [MATCH_TH])

/-- The pair key is insensitive to argument order. -/
theorem get_pair_key_symm (norm : String → String) (p1 p2 : String) :
    get_pair_key norm p2 p1 = get_pair_key norm p1 p2 := by
  unfold get_pair_key
  rcases lt_trichotomy (norm p1) (norm p2) with h | h | h
  · rw [if_neg (not_lt.mpr (le_of_lt h)), if_pos h]
  · rw [h]
  · rw [if_pos h, if_neg (not_lt.mpr (le_of_lt h))]

/-- C8: after caching the pair (A, B), a membership query with the arguments
in the opposite order succeeds, for every path-normalisation function and
every prior cache state. -/
theorem skip_cache_order_independent (norm : String → String)
    (db : List (String × String)) (A B : String) :
    is_pair_cached norm (cache_pair norm db A B) B A = true := by
  unfold is_pair_cached cache_pair insertOrReplaceRow
  rw [get_pair_key_symm]
  simp [List.contains_cons]

/-- Inserting into the sorted list is a permutation of consing. -/
theorem insertByMtime_perm (fs : String → Option ℚ) (x : String) (l : List String) :
    (insertByMtime fs x l).Perm (x :: l) := by
  induction l with
  | nil => exact List.Perm.refl _
  | cons y ys ih =>
      rw [insertByMtime]
      split
      · exact (ih.cons y).trans (List.Perm.swap x y ys)
      · exact List.Perm.refl _

/-- The sort returns a permutation of the input. -/
theorem sort_files_perm (fs : String → Option ℚ) (l : List String) :
    (sort_files_by_mtime fs l).Perm l := by
  induction l with
  | nil => exact List.Perm.refl _
  | cons x xs ih => exact (insertByMtime_perm fs x _).trans (ih.cons x)

/-- Insertion preserves sortedness by safe mtime. -/
theorem insertByMtime_pairwise (fs : String → Option ℚ) (x : String) (l : List String)
    (h : l.Pairwise (fun p q => get_mtime_safe fs p ≤ get_mtime_safe fs q)) :
    (insertByMtime fs x l).Pairwise
      (fun p q => get_mtime_safe fs p ≤ get_mtime_safe fs q) := by
  induction l with
  | nil => simp [insertByMtime]
  | cons y ys ih =>
      rcases List.pairwise_cons.mp h with ⟨hy, hys⟩
      rw [insertByMtime]
      split
      · rename_i hlt
        refine List.pairwise_cons.mpr ⟨?_, ih hys⟩
        intro z hz
        rcases List.mem_cons.mp ((insertByMtime_perm fs x ys).mem_iff.mp hz) with rfl | hz2
        · exact le_of_lt hlt
        · exact hy z hz2
      · rename_i hnlt
        refine List.pairwise_cons.mpr ⟨?_, h⟩
        intro z hz
        rcases List.mem_cons.mp hz with rfl | hz2
        · exact not_lt.mp hnlt
        · exact le_trans (not_lt.mp hnlt) (hy z hz2)

/-- The sorted output is ascending in safe mtime. -/
theorem sort_files_pairwise (fs : String → Option ℚ) (l : List String) :
    (sort_files_by_mtime fs l).Pairwise
      (fun p q => get_mtime_safe fs p ≤ get_mtime_safe fs q) := by
  induction l with
  | nil => simp [sort_files_by_mtime]
  | cons x xs ih => exact insertByMtime_pairwise fs x _ ih

/-- C10: sort_files_by_mtime is total in the presence of stat errors: its
output is a permutation of the input, a path whose stat fails is assigned
mtime 0 by get_mtime_safe, and therefore no path with positive mtime is
placed before a vanished path in the sorted output. -/
theorem sort_files_total_and_vanished_first (fs : String → Option ℚ) (l : List String) :
    (sort_files_by_mtime fs l).Perm l ∧
    (∀ p, fs p = none → get_mtime_safe fs p = 0) ∧
    (sort_files_by_mtime fs l).Pairwise
      (fun p q => fs q = none → ¬ 0 < get_mtime_safe fs p) := by
  refine ⟨sort_files_perm fs l, ?_, ?_⟩
  · intro p hp
    simp [get_mtime_safe, hp]
  · refine (sort_files_pairwise fs l).imp ?_
    intro p q hle hq hpos
    rw [show get_mtime_safe fs q = 0 from by simp [get_mtime_safe, hq]] at hle
    exact absurd (lt_of_lt_of_le hpos hle) (lt_irrefl 0)

/-- C10 witness: the vanished path "gone" gets mtime 0, and sorting a small
concrete list is a permutation of it. -/
theorem sort_files_total_and_vanished_first_witness :
    get_mtime_safe fsW "gone" = 0 ∧
    (sort_files_by_mtime fsW ["a", "gone"]).Perm ["a", "gone"] :=
  ⟨(sort_files_total_and_vanished_first fsW ["a", "gone"]).2.1 "gone" rfl,
    (sort_files_total_and_vanished_first fsW ["a", "gone"]).1⟩

/-- The aggregation loop returns exactly the flattening of the prefix of
completed-task results observed before the flag was first seen set. -/
theorem collectResults_take (flag : ℕ → Bool) (t : ℕ) (rs : List (List DupCand × ℕ)) :
    (collectResults flag t rs).1 =
      ((rs.take (processedCount flag t rs.length)).map (fun r => r.1)).flatten := by
  induction rs generalizing t with
  | nil => simp [collectResults, processedCount]
  | cons r rest ih =>
      rw [collectResults, processedCount.eq_def]
      by_cases hf : flag t
      · simp [hf]
      · simp only [hf, Bool.false_eq_true, if_false, List.length_cons]
        simp [List.take_succ_cons, ih (t + 1)]

/-- C9: cancellation never persists skip-cache entries.  With a monotone
shutdown flag: (a) if the flag is set at or before the final observation of
the session, the bulk cache write is not called; (b) when list_dup_cand
observes the flag after the comparison phase it returns empty candidate and
skipped lists; (c) the comparison phase still returns all results aggregated
before the flag was observed; (d) conversely, a cache write implies the flag
was clear at the final observation and the deletion phase confirmed (or
there was nothing to delete). -/
theorem cancellation_no_cache_write
    (flag : ℕ → Bool) (cached : DupCand → Bool) (ans : ℕ → QAns)
    (isfile : DupCand → Bool) (dans : ℕ → DAns)
    (t : ℕ) (rs : List (List DupCand × ℕ))
    (hmono : FlagMonotone flag) :
    (∀ T, flag T = true → T ≤ (listDupCand flag cached ans t rs).2 →
      (runInteractiveModel flag cached ans isfile dans t rs).1 = none) ∧
    (flag (collectResults flag t rs).2 = true →
      (listDupCand flag cached ans t rs).1 = ([], [])) ∧
    ((collectResults flag t rs).1 =
      ((rs.take (processedCount flag t rs.length)).map (fun r => r.1)).flatten) ∧
    (∀ w, (runInteractiveModel flag cached ans isfile dans t rs).1 = some w →
      flag (listDupCand flag cached ans t rs).2 = false ∧
      ((listDupCand flag cached ans t rs).1.1 = [] ∨
        execDelete isfile dans (listDupCand flag cached ans t rs).1.1 = true)) := by
  refine ⟨?_, ?_, collectResults_take flag t rs, ?_⟩
  · intro T hset hT
    have hf : flag (listDupCand flag cached ans t rs).2 = true := hmono T _ hT hset
    simp only [runInteractiveModel, hf, if_true]
  · intro hcol
    simp only [listDupCand, hcol, if_true]
  · intro w hw
    by_cases hf : flag (listDupCand flag cached ans t rs).2
    · simp only [runInteractiveModel, hf, if_true] at hw
      exact absurd hw (by simp)
    · refine ⟨by simpa using hf, ?_⟩
      by_cases hd : (listDupCand flag cached ans t rs).1.1.isEmpty
      · exact Or.inl (List.isEmpty_iff.mp hd)
      · right
        simp only [runInteractiveModel, hf, Bool.false_eq_true, if_false, hd] at hw
        by_cases he : execDelete isfile dans (listDupCand flag cached ans t rs).1.1
        · exact he
        · simp [he] at hw

/-- C9 witness: a concrete session in which the flag is raised at clock 2
(during the question loop), with two completed tasks and user answers
present; the theorem yields that no cache write happens. -/
theorem cancellation_no_cache_write_witness :
    (runInteractiveModel (fun u => decide (2 ≤ u)) (fun _ => false) (fun _ => QAns.no)
      (fun _ => true) (fun _ => DAns.yes) 0
      [([(mkFileInfo (mkAbcd "c1" 1 1 1) (abcdName, abcdName),
          mkFileInfo (mkAbcd "c2" 1 2 2) (abcdName, abcdName))], 1)]).1 = none := by
  refine (cancellation_no_cache_write (fun u => decide (2 ≤ u)) (fun _ => false)
    (fun _ => QAns.no) (fun _ => true) (fun _ => DAns.yes) 0 _ ?_).1 2 (by decide) ?_
  · intro s u hsu hs
    simp only [decide_eq_true_eq] at hs ⊢
    omega
  · show 2 ≤ (listDupCand _ _ _ 0 _).2
    decide

/-- The inner worker loop counts exactly the directory-matching later
records. -/
theorem innerScan_count (info1 : PrecomputedFileInfo) (th : ℚ)
    (l : List PrecomputedFileInfo) :
    (innerScan info1 th l).2 = l.countP (fun y => decide (y.dir_path = info1.dir_path)) := by
  induction l with
  | nil => rfl
  | cons y rest ih =>
      rw [innerScan]
      by_cases hd : info1.dir_path = y.dir_path
      · rcases hcp : compare_pair info1 y th with _ | r <;>
          simp [hd, hcp, List.countP_cons, ih, eq_comm]
      · have hd2 : ¬ y.dir_path = info1.dir_path := fun h => hd h.symm
        simp [hd, hd2, List.countP_cons, ih]

/-- Rows beyond the end of the list contribute nothing. -/
theorem rowValid_of_drop_nil (infos : List PrecomputedFileInfo) (i : ℕ)
    (h : infos.drop i = []) : rowValid infos i = 0 := by
  rw [rowValid, h]

/-- The worker's valid-comparison count over start indices `[s, s + cnt)` is
the sum of the per-row counts. -/
theorem workerGo_count (th : ℚ) (infos : List PrecomputedFileInfo) :
    ∀ cnt s, (workerGo th cnt (infos.drop s)).2 =
      ((List.range' s cnt).map (rowValid infos)).sum := by
  intro cnt
  induction cnt with
  | zero => intro s; simp [workerGo]
  | succ cnt ih =>
      intro s
      rcases hd : infos.drop s with _ | ⟨x, rest⟩
      · rw [workerGo]
        have hz : ∀ i, s ≤ i → rowValid infos i = 0 := by
          intro i hi
          refine rowValid_of_drop_nil infos i ?_
          have h1 : infos.length ≤ s := by
            have h0 : infos.length - s = 0 := by simpa using congrArg List.length hd
            omega
          exact List.drop_eq_nil_of_le (le_trans h1 hi)
        have hall : ∀ m t, s ≤ t → ((List.range' t m).map (rowValid infos)).sum = 0 := by
          intro m
          induction m with
          | zero => intro t _; simp
          | succ m ihm =>
              intro t ht
              rw [List.range'_succ]
              simp [hz t ht, ihm (t + 1) (by omega)]
        simp [hall (cnt + 1) s (le_refl s)]
      · have hrest : infos.drop (s + 1) = rest := by
          rw [← List.drop_drop]
          rw [hd]
          rfl
        rw [workerGo]
        have h1 : (innerScan x th rest).2 = rowValid infos s := by
          rw [innerScan_count, rowValid, hd]
        have h2 := ih (s + 1)
        rw [hrest] at h2
        simp only [List.range'_succ, List.map_cons, List.sum_cons]
        rw [← h1, ← h2]

/-- The task-building loop produces consecutive intervals from `cs` up to
`n - 1`. -/
theorem buildGo_chain (n target : ℕ) (th : ℚ) :
    ∀ fuel i cs cc, i + fuel = n - 1 → i < n - 1 → cs ≤ i →
      chainFromB cs (n - 1) (buildGo n target th fuel i cs cc) = true := by
  intro fuel
  induction fuel with
  | zero => intro i cs cc hfi hi _; omega
  | succ fuel ih =>
      intro i cs cc hfi hi hcs
      rw [buildGo]
      by_cases hbr : target ≤ cc + (n - 1 - i) ∨ i = n - 2
      · rw [if_pos hbr]
        rw [chainFromB]
        rcases Nat.lt_or_ge i (n - 2) with hlt | hge
        · have hrest := ih (i + 1) (i + 1) 0 (by omega) (by omega) (le_refl _)
          simp [hrest]
          omega
        · have hfz : fuel = 0 := by omega
          subst hfz
          rw [buildGo]
          rw [chainFromB]
          have hend : i + 1 = n - 1 := by omega
          simp [hend]
          omega
      · rw [if_neg hbr]
        push_neg at hbr
        exact ih (i + 1) cs (cc + (n - 1 - i)) (by omega) (by omega) (by omega)

/-- A chain implies its lower bound is at most its upper bound. -/
theorem chain_le (hi : ℕ) : ∀ (ts : List (ℕ × ℕ × ℚ)) (lo : ℕ),
    chainFromB lo hi ts = true → lo ≤ hi := by
  intro ts
  induction ts with
  | nil =>
      intro lo h
      rw [chainFromB] at h
      exact le_of_eq (eq_of_beq h)
  | cons t rest ih =>
      intro lo h
      rw [chainFromB] at h
      simp only [Bool.and_eq_true, beq_iff_eq, decide_eq_true_eq] at h
      exact le_trans (le_of_lt h.1.2) (ih t.2.1 h.2)

/-- Summing any per-row function over a chain of intervals equals summing it
over the whole covered range. -/
theorem chain_sum (f : ℕ → ℕ) (hi : ℕ) : ∀ (ts : List (ℕ × ℕ × ℚ)) (lo : ℕ),
    chainFromB lo hi ts = true →
    (ts.map (fun t => ((List.range' t.1 (t.2.1 - t.1)).map f).sum)).sum =
      ((List.range' lo (hi - lo)).map f).sum := by
  intro ts
  induction ts with
  | nil =>
      intro lo h
      rw [chainFromB] at h
      have hlo : lo = hi := eq_of_beq h
      simp [hlo]
  | cons t rest ih =>
      intro lo h
      rw [chainFromB] at h
      simp only [Bool.and_eq_true, beq_iff_eq, decide_eq_true_eq] at h
      obtain ⟨⟨hs, hlt⟩, hch⟩ := h
      have he : t.2.1 ≤ hi := chain_le hi rest t.2.1 hch
      have hsplit : List.range' lo (t.2.1 - lo) ++ List.range' t.2.1 (hi - t.2.1) =
          List.range' lo (hi - lo) := by
        have happ := List.range'_append_1 lo (t.2.1 - lo) (hi - t.2.1)
        rw [show lo + (t.2.1 - lo) = t.2.1 by omega] at happ
        rw [show hi - t.2.1 + (t.2.1 - lo) = hi - lo by omega] at happ
        exact happ
      rw [List.map_cons, List.sum_cons, ← hsplit, List.map_append, List.sum_append,
        ih t.2.1 hch, hs]

/-- The per-row sums over all start indices add up to the recursive pair
count. -/
theorem rows_sum (infos : List PrecomputedFileInfo) :
    ((List.range' 0 (infos.length - 1)).map (rowValid infos)).sum = pairSum infos := by
  induction infos with
  | nil => simp [pairSum]
  | cons x rest ih =>
      rcases rest with _ | ⟨y, ys⟩
      · simp [pairSum]
      · have hshift : ∀ k s, ((List.range' (s + 1) k).map (rowValid (x :: y :: ys))).sum =
            ((List.range' s k).map (rowValid (y :: ys))).sum := by
          intro k
          induction k with
          | zero => intro s; simp
          | succ k ihk =>
              intro s
              rw [List.range'_succ, List.range'_succ]
              simp only [List.map_cons, List.sum_cons]
              rw [ihk (s + 1)]
              rfl
        have hlen : (x :: y :: ys).length - 1 = ys.length + 1 := by simp
        rw [hlen, List.range'_succ]
        simp only [List.map_cons, List.sum_cons]
        rw [hshift ys.length 0]
        have hlen2 : (y :: ys).length - 1 = ys.length := by simp
        rw [hlen2] at ih
        rw [ih]
        rfl

/-- The record-level pair count equals the directory-list pair count. -/
theorem pairSum_eq_dirPairSum (infos : List PrecomputedFileInfo) :
    pairSum infos = dirPairSum (infos.map (fun info => info.dir_path)) := by
  induction infos with
  | nil => rfl
  | cons x rest ih =>
      rw [pairSum, dirPairSum.eq_def]
      simp only [List.map_cons]
      rw [ih]
      congr 1
      rw [List.count_eq_countP, List.countP_map]
      refine List.countP_congr ?_
      intro y _
      by_cases h : y.dir_path = x.dir_path <;> simp [h, Function.comp]

/-- The triangular-number step: adding one more member to a group of `c`
members adds `c` new pairs. -/
theorem triangle_step (c : ℕ) : (c + 1) * c / 2 = c + c * (c - 1) / 2 := by
  rcases c with _ | c0
  · rfl
  · have h2 : (c0 + 1 + 1) * (c0 + 1) = (c0 + 1) * c0 + 2 * (c0 + 1) := by ring
    have h3 : (c0 + 1) * (c0 + 1 - 1) = (c0 + 1) * c0 := by simp
    rw [h2, h3, Nat.add_mul_div_left _ _ (by omega : 0 < 2)]
    omega

/-- The Counter-based per-directory sum of `n*(n-1)/2` equals the recursive
pair count over the directory list. -/
theorem counterSum_eq_dirPairSum (ds : List String) :
    ds.toFinset.sum (fun d => ds.count d * (ds.count d - 1) / 2) = dirPairSum ds := by
  induction ds with
  | nil => rfl
  | cons d ds ih =>
      rw [List.toFinset_cons, dirPairSum]
      by_cases hd : d ∈ ds.toFinset
      · have hins : insert d ds.toFinset = ds.toFinset := Finset.insert_eq_self.mpr hd
        rw [hins]
        have hsplit := (Finset.add_sum_erase ds.toFinset
          (fun x => (d :: ds).count x * ((d :: ds).count x - 1) / 2) hd).symm
        rw [hsplit]
        have hsplit2 := (Finset.add_sum_erase ds.toFinset
          (fun x => ds.count x * (ds.count x - 1) / 2) hd).symm
        rw [hsplit2] at ih
        have hoff : ∀ x ∈ ds.toFinset.erase d,
            (d :: ds).count x * ((d :: ds).count x - 1) / 2 =
              ds.count x * (ds.count x - 1) / 2 := by
          intro x hx
          have hne : x ≠ d := Finset.ne_of_mem_erase hx
          rw [List.count_cons_of_ne hne]
        rw [Finset.sum_congr rfl hoff]
        have hcd : (d :: ds).count d = ds.count d + 1 := List.count_cons_self d ds
        rw [hcd]
        simp only [Nat.add_sub_cancel]
        rw [triangle_step (ds.count d)]
        omega
      · have hnotmem : d ∉ ds := fun hmem => hd (List.mem_toFinset.mpr hmem)
        rw [Finset.sum_insert hd]
        have hcd : (d :: ds).count d = 1 := by
          rw [List.count_cons_self, List.count_eq_zero_of_not_mem hnotmem]
        rw [hcd]
        have hz : ds.count d = 0 := List.count_eq_zero_of_not_mem hnotmem
        have hoff : ∀ x ∈ ds.toFinset,
            (d :: ds).count x * ((d :: ds).count x - 1) / 2 =
              ds.count x * (ds.count x - 1) / 2 := by
          intro x hx
          have hne : x ≠ d := fun he => hnotmem (he ▸ List.mem_toFinset.mp hx)
          rw [List.count_cons_of_ne hne]
        rw [Finset.sum_congr rfl hoff, ih, hz]

/-- The reference count of valid comparisons equals the recursive pair
count. -/
theorem count_valid_eq_pairSum (infos : List PrecomputedFileInfo) :
    count_valid_comparisons infos = pairSum infos := by
  rw [count_valid_comparisons]
  rw [counterSum_eq_dirPairSum, ← pairSum_eq_dirPairSum]

/-- For at least two records the task list of find_dup_candidates_parallel
chains consecutively from start index 0 to `n - 1`. -/
theorem buildTasks_chain (n w : ℕ) (h : 2 ≤ n) :
    chainFromB 0 (n - 1) (buildTasks n w) = true := by
  have hch : ∀ target, chainFromB 0 (n - 1)
      (buildGo n target MATCH_TH (n - 1) 0 0 0) = true := by
    intro target
    exact buildGo_chain n target MATCH_TH (n - 1) 0 0 0 (by omega) (by omega) (le_refl 0)
  simp only [buildTasks]
  split
  · rename_i hnil
    have hc := hch (min 500000 (max 1 (n * (n - 1) / 2 / max 200 (w * 50))))
    rw [hnil] at hc
    rw [chainFromB] at hc
    have : (0 : ℕ) = n - 1 := eq_of_beq hc
    omega
  · exact hch _

/-- C1: for n >= 2 records and any worker count, the task ranges built by
find_dup_candidates_parallel are consecutive disjoint intervals starting at
0 and ending at n - 1 (so the start indices 0..n-2 are partitioned and every
same-directory pair is evaluated by exactly one task), and the sum over all
tasks of the workers' returned valid-comparison counts equals
count_valid_comparisons. -/
theorem tasks_partition_and_valid_total (infos : List PrecomputedFileInfo) (w : ℕ)
    (h : 2 ≤ infos.length) :
    chainFromB 0 (infos.length - 1) (buildTasks infos.length w) = true ∧
    ((buildTasks infos.length w).map
      (fun task => (worker_compare_range infos task).2)).sum =
      count_valid_comparisons infos := by
  refine ⟨buildTasks_chain infos.length w h, ?_⟩
  have hchain := buildTasks_chain infos.length w h
  have hmap : (buildTasks infos.length w).map
      (fun task => (worker_compare_range infos task).2) =
      (buildTasks infos.length w).map
        (fun task => ((List.range' task.1 (task.2.1 - task.1)).map (rowValid infos)).sum) := by
    refine List.map_congr_left ?_
    intro task _
    exact workerGo_count task.2.2 infos (task.2.1 - task.1) task.1
  rw [hmap]
  rw [chain_sum (rowValid infos) (infos.length - 1) (buildTasks infos.length w) 0 hchain]
  rw [Nat.sub_zero, rows_sum, count_valid_eq_pairSum]

/-- C1 witness: three records in three distinct directories (so no cross-
directory pair is ever counted), two tasks covering start indices 0 and 1. -/
theorem tasks_partition_and_valid_total_witness :
    chainFromB 0 ([mkInDir "x" "/d1", mkInDir "y" "/d2", mkInDir "z" "/d3"].length - 1)
      (buildTasks [mkInDir "x" "/d1", mkInDir "y" "/d2", mkInDir "z" "/d3"].length 4) = true ∧
    ((buildTasks [mkInDir "x" "/d1", mkInDir "y" "/d2", mkInDir "z" "/d3"].length 4).map
      (fun task => (worker_compare_range
        [mkInDir "x" "/d1", mkInDir "y" "/d2", mkInDir "z" "/d3"] task).2)).sum =
      count_valid_comparisons [mkInDir "x" "/d1", mkInDir "y" "/d2", mkInDir "z" "/d3"] :=
  tasks_partition_and_valid_total
    [mkInDir "x" "/d1", mkInDir "y" "/d2", mkInDir "z" "/d3"] 4 (by decide)

/-- Extending a slice by one character on the right. -/
theorem seg_snoc (l : List Char) (i v : ℕ) (h : i + v < l.length) :
    seg l i (v + 1) = seg l i v ++ [l.getD (i + v) ' '] := by
  rw [seg, seg, List.take_succ]
  congr 1
  rw [List.getElem?_drop, List.getElem?_eq_getElem h]
  simp [List.getD_eq_getElem?_getD, List.getElem?_eq_getElem h]

/-- Singleton slice. -/
theorem seg_one (l : List Char) (i : ℕ) (h : i < l.length) :
    seg l i 1 = [l.getD i ' '] := by
  have hs := seg_snoc l i 0 (by omega)
  simpa [seg] using hs

/-- Extending a slice by one character on the left. -/
theorem seg_cons (l : List Char) (i v : ℕ) (h : i < l.length) :
    seg l i (v + 1) = l.getD i ' ' :: seg l (i + 1) v := by
  rw [seg, seg, List.drop_eq_getElem_cons h, List.take_succ_cons]
  simp [List.getD_eq_getElem?_getD, List.getElem?_eq_getElem h]

/-- Splitting a slice. -/
theorem seg_add (l : List Char) (i p q : ℕ) :
    seg l i (p + q) = seg l i p ++ seg l (i + p) q := by
  rw [seg, seg, seg, List.take_add, List.drop_drop]

/-- In-range slices have full length. -/
theorem seg_length (l : List Char) (i k : ℕ) (h : i + k ≤ l.length) :
    (seg l i k).length = k := by
  rw [seg, List.length_take, List.length_drop]
  omega

/-- The quick_ratio loop computes the multiset-intersection cardinality of
the unprocessed characters with the remaining availability. -/
theorem quickLoop_eq (b : List Char) :
    ∀ (a : List Char) (avail : List (Char × ℤ)) (m : ℕ) (R : Multiset Char),
      (∀ c : Char, R.count c = ((avail.lookup c).getD ((b.count c : ℤ))).toNat) →
      quickLoop (fun c => b.count c) a avail m = m + Multiset.card ((a : Multiset Char) ∩ R) := by
  intro a
  induction a with
  | nil =>
      intro avail m R _
      rw [quickLoop]
      rw [show ((([] : List Char) : Multiset Char)) = 0 from rfl]
      rw [Multiset.zero_inter]
      simp
  | cons c rest ih =>
      intro avail m R hR
      rw [quickLoop]
      have hc := hR c
      have hcoe : ((c :: rest : List Char) : Multiset Char) = c ::ₘ (rest : Multiset Char) :=
        (Multiset.cons_coe c rest).symm
      by_cases hpos : 0 < (avail.lookup c).getD ((b.count c : ℤ))
      · rw [if_pos hpos]
        have hmem : c ∈ R := by
          rw [← Multiset.count_pos, hc]
          omega
        rw [ih ((c, (avail.lookup c).getD ((b.count c : ℤ)) - 1) :: avail) (m + 1)
          (R.erase c) ?_]
        · rw [hcoe, Multiset.cons_inter_of_pos _ hmem]
          simp only [Multiset.card_cons]
          omega
        · intro d
          by_cases hdc : d = c
          · subst hdc
            rw [List.lookup_cons_self, Multiset.count_erase_self, hc]
            simp only [Option.getD_some]
            omega
          · rw [List.lookup_cons]
            rw [show (d == c) = false from beq_eq_false_iff_ne.mpr hdc]
            rw [Multiset.count_erase_of_ne hdc]
            exact hR d
      · rw [if_neg hpos]
        have hnot : c ∉ R := by
          rw [← Multiset.count_pos, hc]
          omega
        rw [ih ((c, (avail.lookup c).getD ((b.count c : ℤ)) - 1) :: avail) m R ?_]
        · rw [hcoe, Multiset.cons_inter_of_neg _ hnot]
        · intro d
          by_cases hdc : d = c
          · subst hdc
            rw [List.lookup_cons_self, hc]
            simp only [Option.getD_some]
            omega
          · rw [List.lookup_cons]
            rw [show (d == c) = false from beq_eq_false_iff_ne.mpr hdc]
            exact hR d

/-- One dp row preserves the invariants: the new row's entries certify
segments ending at row `i`, and the best triple stays inside the window. -/
theorem rowLoop_inv (a b : List Char) (alo ahi blo bhi : ℕ) (i : ℕ)
    (hai : alo ≤ i) (hia : i < ahi) (hla : ahi ≤ a.length) (hlb : bhi ≤ b.length)
    (prev : ℕ → ℕ) (hprev : RowInv a b alo blo bhi prev i) :
    ∀ (js : List ℕ) (row : ℕ → ℕ) (best : ℕ × ℕ × ℕ),
      (∀ j ∈ js, blo ≤ j ∧ j < bhi ∧ b.getD j ' ' = a.getD i ' ') →
      RowInv a b alo blo bhi row (i + 1) →
      BestInv a b alo ahi blo bhi best →
      RowInv a b alo blo bhi (rowLoop prev i js row best).1 (i + 1) ∧
        BestInv a b alo ahi blo bhi (rowLoop prev i js row best).2 := by
  intro js
  induction js with
  | nil =>
      intro row best _ hrow hbest
      exact ⟨hrow, hbest⟩
  | cons j js ih =>
      intro row best hjs hrow hbest
      obtain ⟨hjb, hjh, hjc⟩ := hjs j (List.mem_cons_self j js)
      have hjla : j < b.length := lt_of_lt_of_le hjh hlb
      have hila : i < a.length := lt_of_lt_of_le hia hla
      rw [rowLoop]
      have hk : ∀ v : ℕ, v = (if j = 0 then 0 else prev (j - 1)) →
          v + 1 ≤ i + 1 ∧ v + 1 ≤ j + 1 ∧ alo + (v + 1) ≤ i + 1 ∧
            blo + (v + 1) ≤ j + 1 ∧
            seg a (i + 1 - (v + 1)) (v + 1) = seg b (j + 1 - (v + 1)) (v + 1) := by
        intro v hv
        have hbase : v = 0 →
            v + 1 ≤ i + 1 ∧ v + 1 ≤ j + 1 ∧ alo + (v + 1) ≤ i + 1 ∧
              blo + (v + 1) ≤ j + 1 ∧
              seg a (i + 1 - (v + 1)) (v + 1) = seg b (j + 1 - (v + 1)) (v + 1) := by
          intro hv0
          subst hv0
          refine ⟨by omega, by omega, by omega, by omega, ?_⟩
          rw [Nat.add_sub_cancel, Nat.add_sub_cancel, seg_one a i hila, seg_one b j hjla, hjc]
        by_cases hj0 : j = 0
        · rw [if_pos hj0] at hv
          exact hbase hv
        · rw [if_neg hj0] at hv
          by_cases hpz : prev (j - 1) = 0
          · rw [hpz] at hv
            exact hbase hv
          · obtain ⟨hw1, hw2, hw3, hw4, _, hwseg⟩ := hprev (j - 1) hpz
            rw [← hv] at hw1 hw2 hw3 hw4 hwseg
            have hj1 : j - 1 + 1 = j := by omega
            rw [hj1] at hw2 hw4 hwseg
            refine ⟨by omega, by omega, by omega, by omega, ?_⟩
            have hia2 : i + 1 - (v + 1) = i - v := by omega
            have hja2 : j + 1 - (v + 1) = j - v := by omega
            rw [hia2, hja2]
            have hsa : seg a (i - v) (v + 1) = seg a (i - v) v ++ [a.getD i ' '] := by
              have hsn := seg_snoc a (i - v) v (by omega)
              rwa [show i - v + v = i by omega] at hsn
            have hsb : seg b (j - v) (v + 1) = seg b (j - v) v ++ [b.getD j ' '] := by
              have hsn := seg_snoc b (j - v) v (by omega)
              rwa [show j - v + v = j by omega] at hsn
            rw [hsa, hsb, hwseg, hjc]
      obtain ⟨hk1, hk2, hk3, hk4, hk5⟩ := hk _ rfl
      refine ih _ _ (fun x hx => hjs x (List.mem_cons_of_mem j hx)) ?_ ?_
      · intro x hx
        by_cases hxj : x = j
        · subst hxj
          simp only [if_pos rfl] at hx ⊢
          exact ⟨hk1, hk2, hk3, hk4, hjh, hk5⟩
        · simp only [if_neg hxj] at hx ⊢
          exact hrow x hx
      · by_cases hup : best.2.2 < (if j = 0 then 0 else prev (j - 1)) + 1
        · rw [if_pos hup]
          refine ⟨?_, ?_, ?_, ?_, hk5⟩
          · show alo ≤ i + 1 - ((if j = 0 then 0 else prev (j - 1)) + 1)
            omega
          · show i + 1 - ((if j = 0 then 0 else prev (j - 1)) + 1) +
              ((if j = 0 then 0 else prev (j - 1)) + 1) ≤ ahi
            omega
          · show blo ≤ j + 1 - ((if j = 0 then 0 else prev (j - 1)) + 1)
            omega
          · show j + 1 - ((if j = 0 then 0 else prev (j - 1)) + 1) +
              ((if j = 0 then 0 else prev (j - 1)) + 1) ≤ bhi
            omega
        · rw [if_neg hup]
          exact hbest

/-- The dp outer loop establishes the best-triple invariant. -/
theorem iLoop_inv (a b : List Char) (aj : Bool) (alo ahi blo bhi : ℕ)
    (hla : ahi ≤ a.length) (hlb : bhi ≤ b.length) :
    ∀ steps i prev best, alo ≤ i → i + steps = ahi →
      RowInv a b alo blo bhi prev i →
      BestInv a b alo ahi blo bhi best →
      BestInv a b alo ahi blo bhi (iLoop a b aj blo bhi steps i prev best) := by
  intro steps
  induction steps with
  | zero =>
      intro i prev best _ _ _ hbest
      exact hbest
  | succ steps ih =>
      intro i prev best hai hfi hprev hbest
      rw [iLoop]
      have hjs : ∀ j ∈ (b2jOf aj b (a.getD i ' ')).filter (fun j => blo ≤ j && j < bhi),
          blo ≤ j ∧ j < bhi ∧ b.getD j ' ' = a.getD i ' ' := by
        intro j hj
        rw [List.mem_filter] at hj
        obtain ⟨hj1, hj2⟩ := hj
        simp only [Bool.and_eq_true, decide_eq_true_eq] at hj2
        refine ⟨hj2.1, hj2.2, ?_⟩
        rw [b2jOf] at hj1
        split at hj1
        · simp at hj1
        · rw [bIndices, List.mem_filter] at hj1
          exact eq_of_beq hj1.2
      have hrow0 : RowInv a b alo blo bhi (fun _ => 0) (i + 1) := by
        intro j hj
        simp at hj
      have hre := rowLoop_inv a b alo ahi blo bhi i hai (by omega) hla hlb prev hprev
        _ (fun _ => 0) best hjs hrow0 hbest
      exact ih (i + 1) _ _ (by omega) (by omega) hre.1 hre.2

/-- The backward extension loop preserves the best-triple invariant. -/
theorem extendBack_inv (a b : List Char) (alo ahi blo bhi : ℕ)
    (hla : ahi ≤ a.length) (hlb : bhi ≤ b.length) :
    ∀ fuel best, BestInv a b alo ahi blo bhi best →
      BestInv a b alo ahi blo bhi (extendBack a b alo blo fuel best) := by
  intro fuel
  induction fuel with
  | zero =>
      intro best h
      exact h
  | succ fuel ih =>
      intro best h
      obtain ⟨bi, bj, bs⟩ := best
      obtain ⟨h1, h2, h3, h4, h5⟩ := h
      dsimp only at h1 h2 h3 h4 h5
      rw [extendBack]
      split
      · rename_i hg
        obtain ⟨hg1, hg2, hg3⟩ := hg
        apply ih
        refine ⟨?_, ?_, ?_, ?_, ?_⟩ <;> dsimp only
        · omega
        · omega
        · omega
        · omega
        · have hbia : bi - 1 < a.length := by omega
          have hbjb : bj - 1 < b.length := by omega
          rw [seg_cons a (bi - 1) bs hbia, seg_cons b (bj - 1) bs hbjb]
          rw [show bi - 1 + 1 = bi by omega, show bj - 1 + 1 = bj by omega]
          rw [h5, hg3]
      · exact ⟨h1, h2, h3, h4, h5⟩

/-- The forward extension loop preserves the best-triple invariant. -/
theorem extendFwd_inv (a b : List Char) (alo ahi blo bhi : ℕ)
    (hla : ahi ≤ a.length) (hlb : bhi ≤ b.length) :
    ∀ fuel best, BestInv a b alo ahi blo bhi best →
      BestInv a b alo ahi blo bhi (extendFwd a b ahi bhi fuel best) := by
  intro fuel
  induction fuel with
  | zero =>
      intro best h
      exact h
  | succ fuel ih =>
      intro best h
      obtain ⟨bi, bj, bs⟩ := best
      obtain ⟨h1, h2, h3, h4, h5⟩ := h
      dsimp only at h1 h2 h3 h4 h5
      rw [extendFwd]
      split
      · rename_i hg
        obtain ⟨hg1, hg2, hg3⟩ := hg
        apply ih
        refine ⟨?_, ?_, ?_, ?_, ?_⟩ <;> dsimp only
        · omega
        · omega
        · omega
        · omega
        · have hbia : bi + bs < a.length := lt_of_lt_of_le hg1 hla
          have hbjb : bj + bs < b.length := lt_of_lt_of_le hg2 hlb
          rw [seg_snoc a bi bs hbia, seg_snoc b bj bs hbjb]
          rw [h5, hg3]
      · exact ⟨h1, h2, h3, h4, h5⟩

/-- find_longest_match returns a pair of equal segments inside the search
window. -/
theorem findLongestMatch_spec (aj : Bool) (a b : List Char) (alo ahi blo bhi : ℕ)
    (h1 : alo ≤ ahi) (h2 : ahi ≤ a.length) (h3 : blo ≤ bhi) (h4 : bhi ≤ b.length) :
    BestInv a b alo ahi blo bhi (findLongestMatch aj a b alo ahi blo bhi) := by
  rw [findLongestMatch]
  apply extendFwd_inv a b alo ahi blo bhi h2 h4
  apply extendBack_inv a b alo ahi blo bhi h2 h4
  apply iLoop_inv a b aj alo ahi blo bhi h2 h4 (ahi - alo) alo _ _ (le_refl alo) (by omega)
  · intro j hj
    simp at hj
  · exact ⟨le_refl alo, by simpa using h1, le_refl blo, by simpa using h3, rfl⟩

/-- Cardinality of multiset intersections is superadditive under pointwise
addition. -/
theorem inter_card_superadd (s1 s2 t1 t2 : Multiset Char) :
    Multiset.card (s1 ∩ t1) + Multiset.card (s2 ∩ t2) ≤
      Multiset.card ((s1 + s2) ∩ (t1 + t2)) := by
  rw [← Multiset.card_add]
  apply Multiset.card_le_card
  apply Multiset.le_inter
  · exact add_le_add (Multiset.inter_le_left _ _) (Multiset.inter_le_left _ _)
  · exact add_le_add (Multiset.inter_le_right _ _) (Multiset.inter_le_right _ _)

/-- Intersection of a multiset with itself. -/
theorem inter_self_card (s : Multiset Char) : Multiset.card (s ∩ s) = Multiset.card s := by
  congr 1
  exact le_antisymm (Multiset.inter_le_left s s) (Multiset.le_inter (le_refl s) (le_refl s))

/-- The total size of the raw matching blocks is at most the multiset
intersection of the two windows: matched blocks pair equal characters at
disjoint positions. -/
theorem blocksRec_sum_le (aj : Bool) (a b : List Char) :
    ∀ fuel alo ahi blo bhi, alo ≤ ahi → ahi ≤ a.length → blo ≤ bhi → bhi ≤ b.length →
    ((matchBlocksRec aj a b fuel alo ahi blo bhi).map (fun t => t.2.2)).sum ≤
      Multiset.card ((seg a alo (ahi - alo) : Multiset Char) ∩
        (seg b blo (bhi - blo) : Multiset Char)) := by
  intro fuel
  induction fuel with
  | zero =>
      intro alo ahi blo bhi _ _ _ _
      simp [matchBlocksRec]
  | succ fuel ih =>
      intro alo ahi blo bhi h1 h2 h3 h4
      rw [matchBlocksRec]
      obtain ⟨hs1, hs2, hs3, hs4, hs5⟩ := findLongestMatch_spec aj a b alo ahi blo bhi h1 h2 h3 h4
      by_cases hz : (findLongestMatch aj a b alo ahi blo bhi).2.2 = 0
      · rw [if_pos hz]
        simp
      · rw [if_neg hz]
        set m := findLongestMatch aj a b alo ahi blo bhi
        have hsa : seg a alo (ahi - alo) =
            seg a alo (m.1 - alo) ++ (seg a m.1 m.2.2 ++ seg a (m.1 + m.2.2) (ahi - (m.1 + m.2.2))) := by
          have e1 : ahi - alo = (m.1 - alo) + (m.2.2 + (ahi - (m.1 + m.2.2))) := by omega
          rw [e1, seg_add, seg_add]
          rw [show alo + (m.1 - alo) = m.1 by omega]
        have hsb : seg b blo (bhi - blo) =
            seg b blo (m.2.1 - blo) ++ (seg b m.2.1 m.2.2 ++ seg b (m.2.1 + m.2.2) (bhi - (m.2.1 + m.2.2))) := by
          have e1 : bhi - blo = (m.2.1 - blo) + (m.2.2 + (bhi - (m.2.1 + m.2.2))) := by omega
          rw [e1, seg_add, seg_add]
          rw [show blo + (m.2.1 - blo) = m.2.1 by omega]
        have hcoeA : ((seg a alo (ahi - alo) : List Char) : Multiset Char) =
            (seg a alo (m.1 - alo) : Multiset Char) +
              ((seg a m.1 m.2.2 : Multiset Char) +
                (seg a (m.1 + m.2.2) (ahi - (m.1 + m.2.2)) : Multiset Char)) := by
          rw [hsa, Multiset.coe_add, Multiset.coe_add]
        have hcoeB : ((seg b blo (bhi - blo) : List Char) : Multiset Char) =
            (seg b blo (m.2.1 - blo) : Multiset Char) +
              ((seg b m.2.1 m.2.2 : Multiset Char) +
                (seg b (m.2.1 + m.2.2) (bhi - (m.2.1 + m.2.2)) : Multiset Char)) := by
          rw [hsb, Multiset.coe_add, Multiset.coe_add]
        rw [hcoeA, hcoeB]
        have hmid : Multiset.card ((seg a m.1 m.2.2 : Multiset Char) ∩
            (seg b m.2.1 m.2.2 : Multiset Char)) = m.2.2 := by
          rw [hs5, inter_self_card, Multiset.coe_card]
          exact seg_length b m.2.1 m.2.2 (le_trans hs4 h4)
        have hL : ((if alo < m.1 ∧ blo < m.2.1 then
            matchBlocksRec aj a b fuel alo m.1 blo m.2.1 else []).map (fun t => t.2.2)).sum ≤
            Multiset.card ((seg a alo (m.1 - alo) : Multiset Char) ∩
              (seg b blo (m.2.1 - blo) : Multiset Char)) := by
          split
          · exact ih alo m.1 blo m.2.1 hs1 (by omega) hs3 (by omega)
          · simp
        have hR : ((if m.1 + m.2.2 < ahi ∧ m.2.1 + m.2.2 < bhi then
            matchBlocksRec aj a b fuel (m.1 + m.2.2) ahi (m.2.1 + m.2.2) bhi else []).map
              (fun t => t.2.2)).sum ≤
            Multiset.card ((seg a (m.1 + m.2.2) (ahi - (m.1 + m.2.2)) : Multiset Char) ∩
              (seg b (m.2.1 + m.2.2) (bhi - (m.2.1 + m.2.2)) : Multiset Char)) := by
          split
          · exact ih (m.1 + m.2.2) ahi (m.2.1 + m.2.2) bhi hs2 h2 hs4 h4
          · simp
        rw [List.map_append, List.sum_append, List.map_cons, List.sum_cons]
        have hmr : Multiset.card ((seg a m.1 m.2.2 : Multiset Char) ∩
              (seg b m.2.1 m.2.2 : Multiset Char)) +
            Multiset.card ((seg a (m.1 + m.2.2) (ahi - (m.1 + m.2.2)) : Multiset Char) ∩
              (seg b (m.2.1 + m.2.2) (bhi - (m.2.1 + m.2.2)) : Multiset Char)) ≤
            Multiset.card (((seg a m.1 m.2.2 : Multiset Char) +
                (seg a (m.1 + m.2.2) (ahi - (m.1 + m.2.2)) : Multiset Char)) ∩
              ((seg b m.2.1 m.2.2 : Multiset Char) +
                (seg b (m.2.1 + m.2.2) (bhi - (m.2.1 + m.2.2)) : Multiset Char))) :=
          inter_card_superadd _ _ _ _
        calc ((if alo < m.1 ∧ blo < m.2.1 then
                matchBlocksRec aj a b fuel alo m.1 blo m.2.1 else []).map
                  (fun t => t.2.2)).sum +
              (m.2.2 + ((if m.1 + m.2.2 < ahi ∧ m.2.1 + m.2.2 < bhi then
                matchBlocksRec aj a b fuel (m.1 + m.2.2) ahi (m.2.1 + m.2.2) bhi else []).map
                  (fun t => t.2.2)).sum)
            ≤ Multiset.card ((seg a alo (m.1 - alo) : Multiset Char) ∩
                (seg b blo (m.2.1 - blo) : Multiset Char)) +
              (Multiset.card ((seg a m.1 m.2.2 : Multiset Char) ∩
                  (seg b m.2.1 m.2.2 : Multiset Char)) +
                Multiset.card ((seg a (m.1 + m.2.2) (ahi - (m.1 + m.2.2)) : Multiset Char) ∩
                  (seg b (m.2.1 + m.2.2) (bhi - (m.2.1 + m.2.2)) : Multiset Char))) := by
              have hmid2 : m.2.2 ≤ Multiset.card ((seg a m.1 m.2.2 : Multiset Char) ∩
                  (seg b m.2.1 m.2.2 : Multiset Char)) := le_of_eq hmid.symm
              exact add_le_add hL (add_le_add hmid2 hR)
          _ ≤ Multiset.card ((seg a alo (m.1 - alo) : Multiset Char) ∩
                (seg b blo (m.2.1 - blo) : Multiset Char)) +
              Multiset.card (((seg a m.1 m.2.2 : Multiset Char) +
                  (seg a (m.1 + m.2.2) (ahi - (m.1 + m.2.2)) : Multiset Char)) ∩
                ((seg b m.2.1 m.2.2 : Multiset Char) +
                  (seg b (m.2.1 + m.2.2) (bhi - (m.2.1 + m.2.2)) : Multiset Char))) := by
              exact add_le_add (le_refl _) hmr
          _ ≤ _ := inter_card_superadd _ _ _ _

/-- Merging adjacent blocks preserves the total matched size. -/
theorem mergeAdj_sum : ∀ (l : List (ℕ × ℕ × ℕ)) (st : ℕ × ℕ × ℕ),
    ((mergeAdj st l).map (fun t => t.2.2)).sum = st.2.2 + (l.map (fun t => t.2.2)).sum := by
  intro l
  induction l with
  | nil =>
      intro st
      obtain ⟨i1, j1, k1⟩ := st
      rw [mergeAdj]
      by_cases hk : k1 = 0 <;> simp [hk]
  | cons x rest ih =>
      intro st
      obtain ⟨i1, j1, k1⟩ := st
      obtain ⟨i2, j2, k2⟩ := x
      rw [mergeAdj]
      split
      · rw [ih (i1, j1, k1 + k2)]
        simp only [List.map_cons, List.sum_cons]
        omega
      · rw [List.map_append, List.sum_append, ih (i2, j2, k2)]
        simp only [List.map_cons, List.sum_cons]
        by_cases hk : k1 = 0 <;> simp [hk]

/-- The total matched size reported by get_matching_blocks equals that of
the raw recursive blocks (sorting permutes, merging preserves sums, the
terminator adds zero). -/
theorem getMatchingBlocks_sum (aj : Bool) (a b : List Char) :
    ((getMatchingBlocks aj a b).map (fun t => t.2.2)).sum =
      ((matchBlocksRec aj a b (a.length + b.length + 1) 0 a.length 0 b.length).map
        (fun t => t.2.2)).sum := by
  rw [getMatchingBlocks]
  rw [List.map_append, List.sum_append]
  rw [mergeAdj_sum]
  have hperm : ((matchBlocksRec aj a b (a.length + b.length + 1) 0 a.length 0 b.length).insertionSort
      tripleLe).Perm (matchBlocksRec aj a b (a.length + b.length + 1) 0 a.length 0 b.length) :=
    List.perm_insertionSort tripleLe _
  rw [(hperm.map (fun t => t.2.2)).sum_eq]
  simp

/-- The matched count of ratio() is bounded by the quick_ratio count. -/
theorem matched_le_quick (aj : Bool) (a b : List Char) :
    ((getMatchingBlocks aj a b).map (fun t => t.2.2)).sum ≤
      quickLoop (fun c => b.count c) a [] 0 := by
  rw [getMatchingBlocks_sum]
  have hq : quickLoop (fun c => b.count c) a [] 0 =
      0 + Multiset.card ((a : Multiset Char) ∩ (b : Multiset Char)) := by
    refine quickLoop_eq b a [] 0 (b : Multiset Char) ?_
    intro c
    rw [List.lookup_nil]
    simp [Multiset.coe_count]
  rw [hq, Nat.zero_add]
  have hb := blocksRec_sum_le aj a b (a.length + b.length + 1) 0 a.length 0 b.length
    (by omega) (le_refl _) (by omega) (le_refl _)
  have hsa : seg a 0 (a.length - 0) = a := by
    rw [Nat.sub_zero, seg, List.drop_zero, List.take_length]
  have hsb : seg b 0 (b.length - 0) = b := by
    rw [Nat.sub_zero, seg, List.drop_zero, List.take_length]
  rw [hsa, hsb] at hb
  exact hb

/-- _calculate_ratio is monotone in the match count. -/
theorem calcRatio_mono (m1 m2 L : ℕ) (h : m1 ≤ m2) : calcRatioOf m1 L ≤ calcRatioOf m2 L := by
  rw [calcRatioOf, calcRatioOf]
  split
  · rename_i hL
    have hLpos : (0 : ℚ) < (L : ℚ) := by
      exact_mod_cast Nat.pos_of_ne_zero hL
    rw [div_le_div_iff_of_pos_right hLpos]
    have : (m1 : ℚ) ≤ (m2 : ℚ) := by exact_mod_cast h
    linarith
  · exact le_refl 1

/-- difflib's quick_ratio is an upper bound of its exact ratio. -/
theorem ratio_le_quick (aj : Bool) (a b : List Char) : ratioOf aj a b ≤ quickRatioOf a b := by
  rw [ratioOf, quickRatioOf]
  exact calcRatio_mono _ _ _ (matched_le_quick aj a b)

/-- C6: the quick_ratio prefilter is redundant: the variant of compare_pair
without it returns exactly the same result on every input, because the
quick ratio is always an upper bound of the exact ratio, so the quick check
never rejects a pair the exact check would keep. -/
theorem quick_prefilter_redundant (info1 info2 : PrecomputedFileInfo) (th : ℚ) :
    compare_pair_noquick info1 info2 th = compare_pair info1 info2 th ∧
    ratioOf true info1.normalized info2.normalized ≤
      quickRatioOf info1.normalized info2.normalized := by
  refine ⟨?_, ratio_le_quick true _ _⟩
  simp only [compare_pair, compare_pair_noquick]
  by_cases h1 : 0 < info1.normalized.length ∧ 0 < info2.normalized.length ∧
      ((min info1.normalized.length info2.normalized.length : ℕ) : ℚ) /
        ((max info1.normalized.length info2.normalized.length : ℕ) : ℚ) < 1 / 2
  · rw [if_pos h1, if_pos h1]
  · rw [if_neg h1, if_neg h1]
    by_cases h2 : quickRatioOf info1.normalized info2.normalized ≤ th
    · rw [if_pos h2, if_pos (le_trans (ratio_le_quick true _ _) h2)]
    · rw [if_neg h2]

end Dupdel
